import Mathlib

/-!
Verification of the black-hole ray tracer (`src/main.rs`).

The core of the program is `BlackHoleApp::ray_trace_scene`: a per-pixel
ray marcher that bends ray directions with an inverse-square pseudo-gravity
field and classifies each ray as captured (black), an accretion-disk hit
(banded orange), or escaped (white star / black space).

Modelling choices:
* `f32` arithmetic is modelled by real arithmetic (`ℝ`): the claims are
  statements about the ideal mathematical semantics of the formulas.
* glam's `Vec3` becomes a three-field real structure with the same
  operations (`length_squared`, `length`, `normalize`, `dot`, `cross`).
  In real arithmetic `1 / 0 = 0`, so `normalize 0 = 0` stands for glam's
  NaN vector; no theorem below relies on the value at that junk point.
* Rust's saturating `as u8` cast of a float becomes
  `max 0 (min 255 ⌊x⌋)` (truncation toward zero agrees with `⌊·⌋` on
  the non-negative values that occur, and negative values clamp to 0
  either way).
* `powf(10.0)` on the non-negative base `|sin x * sin z|` is modelled by
  the natural power `^ 10`, to which it is equal for non-negative bases.
-/

open scoped Classical

noncomputable section

/-- Three-component real vector mirroring `glam::Vec3`. -/
@[ext]
structure Vec3 where
  x : ℝ
  y : ℝ
  z : ℝ

instance : Zero Vec3 := ⟨⟨0, 0, 0⟩⟩

instance : Add Vec3 := ⟨fun a b => ⟨a.x + b.x, a.y + b.y, a.z + b.z⟩⟩

instance : Neg Vec3 := ⟨fun a => ⟨-a.x, -a.y, -a.z⟩⟩

instance : Sub Vec3 := ⟨fun a b => ⟨a.x - b.x, a.y - b.y, a.z - b.z⟩⟩

instance : SMul ℝ Vec3 := ⟨fun s a => ⟨s * a.x, s * a.y, s * a.z⟩⟩

/-- Mirrors `glam::Vec3::dot`. -/
def Vec3.dot (a b : Vec3) : ℝ := a.x * b.x + a.y * b.y + a.z * b.z

/-- Mirrors `glam::Vec3::cross`. -/
def Vec3.cross (a b : Vec3) : Vec3 :=
  ⟨a.y * b.z - a.z * b.y, a.z * b.x - a.x * b.z, a.x * b.y - a.y * b.x⟩

/-- Mirrors `glam::Vec3::length_squared`. -/
def Vec3.length_squared (a : Vec3) : ℝ := a.x ^ 2 + a.y ^ 2 + a.z ^ 2

/-- Mirrors `glam::Vec3::length`. -/
def Vec3.length (a : Vec3) : ℝ := Real.sqrt a.length_squared

/-- Mirrors `glam::Vec3::normalize`: the vector scaled by the reciprocal of its
length.  (For the zero vector real arithmetic yields the junk value `0`
where `f32` would yield NaN.) -/
def Vec3.normalize (a : Vec3) : Vec3 := (1 / a.length) • a

/-- Mirrors `glam::Vec3::Y`. -/
def Vec3.unitY : Vec3 := ⟨0, 1, 0⟩

/-- Model of `egui::Color32` restricted to the opaque RGB constructor used by the
program; channels are the mathematical integers produced by the `as u8`
casts. -/
structure Color32 where
  r : ℤ
  g : ℤ
  b : ℤ
  deriving DecidableEq

/-- Mirrors `egui::Color32::BLACK`. -/
def Color32.BLACK : Color32 := ⟨0, 0, 0⟩

/-- Mirrors `egui::Color32::WHITE`. -/
def Color32.WHITE : Color32 := ⟨255, 255, 255⟩

/-- Rust's saturating `expr as u8` cast applied to a real value:
truncate toward zero and clamp into `[0, 255]`.  On non-negative reals
truncation is `⌊·⌋`, and on negative reals both truncation and floor are
clamped to `0`, so the clamped floor is the exact semantics. -/
def f32_to_u8 (v : ℝ) : ℤ := max 0 (min 255 ⌊v⌋)

/-- Source constant `let schwarzschild_radius: f32 = 1.0;` (main.rs line 78). -/
def schwarzschild_radius : ℝ := 1.0

/-- Source constant `let sr_squared = schwarzschild_radius * schwarzschild_radius;`
(main.rs line 79). -/
def sr_squared : ℝ := schwarzschild_radius * schwarzschild_radius

/-- The disk pattern of main.rs line 106:
`((dist_from_center * 5.0).sin() + 1.0) * 0.5`. -/
def pattern_at (dist_from_center : ℝ) : ℝ :=
  (Real.sin (dist_from_center * 5.0) + 1.0) * 0.5

/-- The accretion-disk color of main.rs line 107:
`Color32::from_rgb((255.0 * pattern) as u8, (120.0 * pattern) as u8, 0)`. -/
def disk_color (dist_from_center : ℝ) : Color32 :=
  ⟨f32_to_u8 (255.0 * pattern_at dist_from_center),
   f32_to_u8 (120.0 * pattern_at dist_from_center), 0⟩

/-- Mirrors `vec2(ray_pos.x, ray_pos.z).length()` (main.rs line 104). -/
def dist_from_center (p : Vec3) : ℝ := Real.sqrt (p.x ^ 2 + p.z ^ 2)

/-- The starfield value of main.rs line 113:
`(ray_dir.x.sin() * ray_dir.z.sin()).abs().powf(10.0)`. -/
def star_val (d : Vec3) : ℝ := |Real.sin d.x * Real.sin d.z| ^ (10 : ℕ)

/-- The gravity term of main.rs line 93:
`-ray_pos.normalize() * (1.0 / dist_sq) * 2.5` where
`dist_sq = ray_pos.length_squared()`. -/
def gravity_at (p : Vec3) : Vec3 :=
  (2.5 : ℝ) • ((1.0 / p.length_squared) • (-(Vec3.normalize p)))

/-- The direction leaving one integration step (main.rs line 94):
`ray_dir = (ray_dir + gravity).normalize()`. -/
def step_dir (p d : Vec3) : Vec3 := Vec3.normalize (d + gravity_at p)

/-- The position leaving one integration step (main.rs line 96):
`ray_pos += ray_dir * 0.5` — the advance uses the already-updated
direction. -/
def step_pos (p d : Vec3) : Vec3 := p + (0.5 : ℝ) • step_dir p d

/-- Outcome of one iteration of the `for _ in 0..64` loop body:
either the loop `break`s with a final color, or marches on with the
updated ray state. -/
inductive StepResult where
  | done (c : Color32)
  | next (p d : Vec3)
  deriving DecidableEq

/-- One iteration of the integration loop body (main.rs lines 91–118):
compute gravity from the current position, renormalize the nudged
direction, advance the position by half the (new) direction, then test
the three terminal conditions in source order. -/
def march_step (p d : Vec3) : StepResult :=
  let dist_sq := p.length_squared
  let gravity := (2.5 : ℝ) • ((1.0 / dist_sq) • (-(Vec3.normalize p)))
  let d' := Vec3.normalize (d + gravity)
  let p' := p + (0.5 : ℝ) • d'
  if p'.length_squared < sr_squared then
    .done Color32.BLACK
  else if |p'.y| < 0.1 ∧ (schwarzschild_radius * 1.5 < dist_from_center p' ∧
      dist_from_center p' < schwarzschild_radius * 4.0) then
    .done (disk_color (dist_from_center p'))
  else if p'.length > 60.0 then
    .done (if star_val d' > 0.5 then Color32.WHITE else Color32.BLACK)
  else
    .next p' d'

/-- The bounded integration loop: run `march_step` up to `fuel` times
starting from `final_color = BLACK`; a `.done` result is the `break`,
and exhausting the fuel leaves the default black. The program runs it
with `fuel = 64`. -/
def march : ℕ → Vec3 → Vec3 → Color32
  | 0, _, _ => Color32.BLACK
  | n + 1, p, d =>
    match march_step p d with
    | .done c => c
    | .next p' d' => march n p' d'

/-- Camera eye (main.rs line 72):
`vec3(radius * azimuth.cos(), 3.0, radius * azimuth.sin())`. -/
def cam_pos (radius azimuth : ℝ) : Vec3 :=
  ⟨radius * Real.cos azimuth, 3.0, radius * Real.sin azimuth⟩

/-- Mirrors `forward = (look_at - cam_pos).normalize()` with `look_at = ZERO`
(main.rs lines 73–74). -/
def cam_forward (radius azimuth : ℝ) : Vec3 :=
  Vec3.normalize ((0 : Vec3) - cam_pos radius azimuth)

/-- Mirrors `right = forward.cross(Vec3::Y).normalize() * aspect_ratio`
(main.rs line 75). -/
def cam_right (radius azimuth aspect_ratio : ℝ) : Vec3 :=
  aspect_ratio • Vec3.normalize (Vec3.cross (cam_forward radius azimuth) Vec3.unitY)

/-- Mirrors `up = right.cross(forward)` (main.rs line 76). -/
def cam_up (radius azimuth aspect_ratio : ℝ) : Vec3 :=
  Vec3.cross (cam_right radius azimuth aspect_ratio) (cam_forward radius azimuth)

/-- Initial ray direction of a pixel (main.rs line 86):
`(forward + right * u - up * v).normalize()`. -/
def initial_dir (fwd rgt upv : Vec3) (u v : ℝ) : Vec3 :=
  Vec3.normalize (fwd + u • rgt - v • upv)

/-- One pixel of `ray_trace_scene` (main.rs lines 83–120): map the pixel
to device coordinates, build the primary ray at the eye, and run the
64-step integration. -/
def render_pixel (radius azimuth : ℝ) (width height : ℕ) (px py : ℕ) : Color32 :=
  let aspect_ratio := (width : ℝ) / (height : ℝ)
  let fwd := cam_forward radius azimuth
  let rgt := cam_right radius azimuth aspect_ratio
  let upv := cam_up radius azimuth aspect_ratio
  let u := ((px : ℝ) / (width : ℝ)) * 2.0 - 1.0
  let v := ((py : ℝ) / (height : ℝ)) * 2.0 - 1.0
  march 64 (cam_pos radius azimuth) (initial_dir fwd rgt upv u v)

/-- Mirrors `ray_trace_scene` (main.rs lines 67–123): the full raster, row-major
(one inner list per scanline `y`). -/
def ray_trace_scene (radius azimuth : ℝ) (width height : ℕ) : List (List Color32) :=
  (List.range height).map fun py =>
    (List.range width).map fun px =>
      render_pixel radius azimuth width height px py

/-- The acceleration exactly as the spec words it:
"−normalize(position) · (1/d²) · field_strength (field_strength
constant = 2.5)", with d² the squared distance from the origin. -/
def spec_accel (p : Vec3) : Vec3 :=
  ((1.0 / p.length_squared) * 2.5) • (-(Vec3.normalize p))

/-!  Helper lemmas about the vector algebra. -/

theorem Vec3.zero_def : (0 : Vec3) = ⟨0, 0, 0⟩ := rfl

theorem Vec3.add_def (a b : Vec3) : a + b = ⟨a.x + b.x, a.y + b.y, a.z + b.z⟩ := rfl

theorem Vec3.neg_def (a : Vec3) : -a = ⟨-a.x, -a.y, -a.z⟩ := rfl

theorem Vec3.sub_def (a b : Vec3) : a - b = ⟨a.x - b.x, a.y - b.y, a.z - b.z⟩ := rfl

theorem Vec3.smul_def (s : ℝ) (a : Vec3) : s • a = ⟨s * a.x, s * a.y, s * a.z⟩ := rfl

theorem Vec3.length_squared_nonneg (a : Vec3) : 0 ≤ a.length_squared := by
  unfold Vec3.length_squared; positivity

theorem Vec3.length_sq_eq (a : Vec3) : a.length ^ 2 = a.length_squared :=
  Real.sq_sqrt a.length_squared_nonneg

theorem Vec3.length_squared_zero : (0 : Vec3).length_squared = 0 := by
  simp [Vec3.length_squared, Vec3.zero_def]

theorem Vec3.length_nonneg (a : Vec3) : 0 ≤ a.length := Real.sqrt_nonneg _

theorem Vec3.length_squared_pos (a : Vec3) (h : a ≠ 0) : 0 < a.length_squared := by
  rcases lt_or_eq_of_le a.length_squared_nonneg with h' | h'
  · exact h'
  · exfalso
    apply h
    have hx : a.x ^ 2 + a.y ^ 2 + a.z ^ 2 = 0 := h'.symm
    have : a.x = 0 ∧ a.y = 0 ∧ a.z = 0 := by
      constructor
      · nlinarith [sq_nonneg a.x, sq_nonneg a.y, sq_nonneg a.z]
      constructor
      · nlinarith [sq_nonneg a.x, sq_nonneg a.y, sq_nonneg a.z]
      · nlinarith [sq_nonneg a.x, sq_nonneg a.y, sq_nonneg a.z]
    ext <;> simp [this.1, this.2.1, this.2.2, Vec3.zero_def]

theorem Vec3.length_pos (a : Vec3) (h : a ≠ 0) : 0 < a.length :=
  Real.sqrt_pos.mpr (a.length_squared_pos h)

theorem Vec3.length_squared_smul (s : ℝ) (a : Vec3) :
    (s • a).length_squared = s ^ 2 * a.length_squared := by
  simp only [Vec3.smul_def, Vec3.length_squared]; ring

theorem Vec3.length_squared_add (a b : Vec3) :
    (a + b).length_squared = a.length_squared + 2 * a.dot b + b.length_squared := by
  simp only [Vec3.add_def, Vec3.length_squared, Vec3.dot]; ring

theorem Vec3.dot_comm (a b : Vec3) : a.dot b = b.dot a := by
  simp only [Vec3.dot]; ring

theorem Vec3.dot_smul_right (s : ℝ) (a b : Vec3) : a.dot (s • b) = s * a.dot b := by
  simp only [Vec3.dot, Vec3.smul_def]; ring

theorem Vec3.dot_add_right (a b c : Vec3) : a.dot (b + c) = a.dot b + a.dot c := by
  simp only [Vec3.dot, Vec3.add_def]; ring

theorem Vec3.dot_self (a : Vec3) : a.dot a = a.length_squared := by
  simp only [Vec3.dot, Vec3.length_squared]; ring

/-- Lagrange's identity for three-dimensional vectors. -/
theorem Vec3.lagrange (a b : Vec3) :
    a.dot b ^ 2 + (Vec3.cross a b).length_squared =
      a.length_squared * b.length_squared := by
  simp only [Vec3.dot, Vec3.cross, Vec3.length_squared]; ring

/-- Cauchy–Schwarz, a consequence of Lagrange's identity. -/
theorem Vec3.dot_sq_le (a b : Vec3) :
    a.dot b ^ 2 ≤ a.length_squared * b.length_squared := by
  have h := Vec3.lagrange a b
  have h' := (Vec3.cross a b).length_squared_nonneg
  linarith

theorem Vec3.dot_cross_self_left (a b : Vec3) : a.dot (Vec3.cross a b) = 0 := by
  simp only [Vec3.dot, Vec3.cross]; ring

theorem Vec3.dot_cross_self_right (a b : Vec3) : a.dot (Vec3.cross b a) = 0 := by
  simp only [Vec3.dot, Vec3.cross]; ring

theorem Vec3.normalize_length_squared (a : Vec3) (h : a ≠ 0) :
    (Vec3.normalize a).length_squared = 1 := by
  have hq := a.length_squared_pos h
  have hl := a.length_pos h
  rw [Vec3.normalize, Vec3.length_squared_smul]
  have : a.length ^ 2 = a.length_squared := a.length_sq_eq
  field_simp
  nlinarith [a.length_sq_eq]

/-- The saturating cast is a plain floor on values already in `[0, 255]`. -/
theorem f32_to_u8_eq_floor (v : ℝ) (h0 : 0 ≤ v) (h255 : v ≤ 255) :
    f32_to_u8 v = ⌊v⌋ := by
  have hfl0 : (0 : ℤ) ≤ ⌊v⌋ := Int.floor_nonneg.mpr h0
  have hfl255 : ⌊v⌋ ≤ 255 := by
    have := Int.floor_le_floor h255
    simpa using this
  rw [f32_to_u8, min_eq_right hfl255, max_eq_right hfl0]

/-- Equation lemma: `march_step` written through the named step components. -/
theorem march_step_eq (p d : Vec3) :
    march_step p d =
      if (step_pos p d).length_squared < sr_squared then
        .done Color32.BLACK
      else if |(step_pos p d).y| < 0.1 ∧
          (schwarzschild_radius * 1.5 < dist_from_center (step_pos p d) ∧
           dist_from_center (step_pos p d) < schwarzschild_radius * 4.0) then
        .done (disk_color (dist_from_center (step_pos p d)))
      else if (step_pos p d).length > 60.0 then
        .done (if star_val (step_dir p d) > 0.5 then Color32.WHITE else Color32.BLACK)
      else
        .next (step_pos p d) (step_dir p d) := rfl

/-- C1: each integration step (repeated a fixed 64 times unless a
terminal condition fires) first computes the acceleration
`−normalize(position)·(1/d²)·2.5`, then sets the new direction to
`normalize(direction + acceleration)`, then advances the position by
`direction·0.5` using the already-updated direction — in exactly that
order; the loop is the fuel recurrence on `march_step`, and a pixel runs
it with fuel 64. -/
theorem c1_step_order :
    (∀ p d : Vec3,
      march_step p d =
        (let a := spec_accel p
         let d' := Vec3.normalize (d + a)
         let p' := p + (0.5 : ℝ) • d'
         if p'.length_squared < sr_squared then
           .done Color32.BLACK
         else if |p'.y| < 0.1 ∧ (schwarzschild_radius * 1.5 < dist_from_center p' ∧
             dist_from_center p' < schwarzschild_radius * 4.0) then
           .done (disk_color (dist_from_center p'))
         else if p'.length > 60.0 then
           .done (if star_val d' > 0.5 then Color32.WHITE else Color32.BLACK)
         else
           .next p' d')) ∧
    (∀ (n : ℕ) (p d : Vec3),
      march (n + 1) p d =
        match march_step p d with
        | .done c => c
        | .next p' d' => march n p' d') ∧
    (∀ (radius azimuth : ℝ) (width height px py : ℕ),
      render_pixel radius azimuth width height px py =
        march 64 (cam_pos radius azimuth)
          (initial_dir (cam_forward radius azimuth)
            (cam_right radius azimuth ((width : ℝ) / (height : ℝ)))
            (cam_up radius azimuth ((width : ℝ) / (height : ℝ)))
            (((px : ℝ) / (width : ℝ)) * 2.0 - 1.0)
            (((py : ℝ) / (height : ℝ)) * 2.0 - 1.0))) := by
  refine ⟨fun p d => ?_, fun n p d => rfl, fun radius azimuth width height px py => rfl⟩
  have haccel : spec_accel p =
      (2.5 : ℝ) • ((1.0 / p.length_squared) • (-(Vec3.normalize p))) := by
    ext <;> simp [spec_accel, Vec3.smul_def, Vec3.neg_def] <;> ring
  simp only [haccel]
  rfl

/-- C2: the camera eye is `(r·cos a, 3.0, r·sin a)` — on the circle of
radius `r` in the x/z plane at height 3.0 — and the derived basis
satisfies `dot(forward, right) = 0` and `dot(forward, up) = 0`. -/
theorem c2_camera_basis (r a : ℝ) (w h : ℕ) (hr : 0 < r) (hw : 0 < w) (hh : 0 < h) :
    cam_pos r a = ⟨r * Real.cos a, 3.0, r * Real.sin a⟩ ∧
    (cam_pos r a).y = 3.0 ∧
    (cam_pos r a).x ^ 2 + (cam_pos r a).z ^ 2 = r ^ 2 ∧
    Vec3.dot (cam_forward r a) (cam_right r a ((w : ℝ) / (h : ℝ))) = 0 ∧
    Vec3.dot (cam_forward r a) (cam_up r a ((w : ℝ) / (h : ℝ))) = 0 := by
  refine ⟨rfl, rfl, ?_, ?_, ?_⟩
  · simp only [cam_pos]
    nlinarith [Real.sin_sq_add_cos_sq a]
  · simp only [cam_right, Vec3.normalize, Vec3.dot_smul_right,
      Vec3.dot_cross_self_left]
    ring
  · simp only [cam_up]
    exact Vec3.dot_cross_self_right _ _

/-- C2 witness at the default camera `r = 15`, `a = 0`, raster 300×200. -/
theorem c2_camera_basis_witness :
    ((0 : ℝ) < 15 ∧ (0 : ℕ) < 300 ∧ (0 : ℕ) < 200) ∧
    (cam_pos 15 0 = ⟨15 * Real.cos 0, 3.0, 15 * Real.sin 0⟩ ∧
     (cam_pos 15 0).y = 3.0 ∧
     (cam_pos 15 0).x ^ 2 + (cam_pos 15 0).z ^ 2 = 15 ^ 2 ∧
     Vec3.dot (cam_forward 15 0) (cam_right 15 0 ((300 : ℕ) / ((200 : ℕ) : ℝ))) = 0 ∧
     Vec3.dot (cam_forward 15 0) (cam_up 15 0 ((300 : ℕ) / ((200 : ℕ) : ℝ))) = 0) :=
  ⟨⟨by norm_num, by norm_num, by norm_num⟩,
   c2_camera_basis 15 0 300 200 (by norm_num) (by norm_num) (by norm_num)⟩

/-- C3: if the direction entering a step is unit length and the nudged
direction `direction + acceleration` is not the zero vector, the
direction leaving the step is unit length again — it is renormalized
immediately after the field contribution is added. -/
theorem c3_unit_direction (p d : Vec3) (hd : d.length_squared = 1)
    (hnz : d + gravity_at p ≠ 0) :
    (step_dir p d).length_squared = 1 := by
  rw [step_dir]
  exact Vec3.normalize_length_squared _ hnz

/-- C3 witness at `p = (1,0,0)`, `d = (1,0,0)`. -/
theorem c3_unit_direction_witness :
    ((⟨1, 0, 0⟩ : Vec3).length_squared = 1 ∧
     (⟨1, 0, 0⟩ : Vec3) + gravity_at ⟨1, 0, 0⟩ ≠ 0) ∧
    (step_dir ⟨1, 0, 0⟩ ⟨1, 0, 0⟩).length_squared = 1 := by
  have hg : gravity_at ⟨1, 0, 0⟩ = ⟨-2.5, 0, 0⟩ := by
    ext <;>
      simp [gravity_at, Vec3.normalize, Vec3.length, Vec3.length_squared,
        Vec3.smul_def, Vec3.neg_def, Real.sqrt_one] <;>
      norm_num
  have hd : (⟨1, 0, 0⟩ : Vec3).length_squared = 1 := by
    simp [Vec3.length_squared]
  have hnz : (⟨1, 0, 0⟩ : Vec3) + gravity_at ⟨1, 0, 0⟩ ≠ 0 := by
    rw [hg]
    intro hcontra
    have := congrArg Vec3.x hcontra
    simp [Vec3.add_def, Vec3.zero_def] at this
    norm_num at this
  exact ⟨⟨hd, hnz⟩, c3_unit_direction _ _ hd hnz⟩

/-- C4: starting at distance exactly 0.5 from the origin with any unit
direction, the first step already lands strictly inside the horizon
(`new squared distance < schwarzschild_radius² = 1`), the step reports
capture (black), and the loop stops there whatever fuel remains. -/
theorem c4_horizon_capture (p d : Vec3) (hp : p.length = 0.5) (hd : d.length = 1) :
    (step_pos p d).length_squared < sr_squared ∧
    march_step p d = .done Color32.BLACK ∧
    ∀ n : ℕ, march (n + 1) p d = Color32.BLACK := by
  have hq : p.length_squared = 1 / 4 := by rw [← p.length_sq_eq, hp]; norm_num
  have hd2 : d.length_squared = 1 := by rw [← d.length_sq_eq, hd]; norm_num
  have hCS : p.dot d ^ 2 ≤ 1 / 4 := by
    have := Vec3.dot_sq_le p d
    rw [hq, hd2] at this
    linarith
  have ht : p.dot d ≤ 1 / 2 := by nlinarith
  have hp0 : p ≠ 0 := by
    intro h0
    rw [h0] at hq
    rw [Vec3.length_squared_zero] at hq
    norm_num at hq
  have hnp : Vec3.normalize p = (2 : ℝ) • p := by
    rw [Vec3.normalize, Vec3.length, hq,
      show (1 / 4 : ℝ) = (1 / 2) ^ 2 by norm_num,
      Real.sqrt_sq (by norm_num : (0 : ℝ) ≤ 1 / 2)]
    norm_num
  have hgrav : gravity_at p = (-20 : ℝ) • p := by
    rw [gravity_at, hq, hnp]
    ext <;> simp [Vec3.smul_def, Vec3.neg_def] <;> ring
  have hvsq : (d + gravity_at p).length_squared = 101 - 40 * p.dot d := by
    rw [hgrav, Vec3.length_squared_add, Vec3.dot_smul_right,
      Vec3.length_squared_smul, hd2, hq, Vec3.dot_comm d p]
    ring
  have hvpos : 0 < (d + gravity_at p).length_squared := by rw [hvsq]; linarith
  have hvne : d + gravity_at p ≠ 0 := fun h0 => by
    rw [h0, Vec3.length_squared_zero] at hvpos
    exact lt_irrefl 0 hvpos
  have hs_pos : 0 < (d + gravity_at p).length := Vec3.length_pos _ hvne
  have hs_sq : (d + gravity_at p).length ^ 2 = 101 - 40 * p.dot d := by
    rw [Vec3.length_sq_eq, hvsq]
  have hsd : step_dir p d = (1 / (d + gravity_at p).length) • (d + gravity_at p) := rfl
  have hsd_sq : (step_dir p d).length_squared = 1 := by
    rw [hsd, Vec3.length_squared_smul, hvsq]
    field_simp
    linarith [hs_sq]
  have hdot_pv : p.dot (d + gravity_at p) = p.dot d - 5 := by
    rw [hgrav, Vec3.dot_add_right, Vec3.dot_smul_right, Vec3.dot_self, hq]
    ring
  have hdot_psd : p.dot (step_dir p d) = (p.dot d - 5) / (d + gravity_at p).length := by
    rw [hsd, Vec3.dot_smul_right, hdot_pv]
    ring
  have hneg : p.dot (step_dir p d) < 0 := by
    rw [hdot_psd]
    exact div_neg_of_neg_of_pos (by linarith) hs_pos
  have hfinal : (step_pos p d).length_squared = 1 / 2 + p.dot (step_dir p d) := by
    rw [step_pos, Vec3.length_squared_add, Vec3.dot_smul_right,
      Vec3.length_squared_smul, hq, hsd_sq]
    ring
  have hlt : (step_pos p d).length_squared < sr_squared := by
    have : sr_squared = 1 := by norm_num [sr_squared, schwarzschild_radius]
    rw [hfinal, this]
    linarith
  refine ⟨hlt, ?_, ?_⟩
  · rw [march_step_eq, if_pos hlt]
  · intro n
    rw [show march (n + 1) p d =
        (match march_step p d with
         | .done c => c
         | .next p' d' => march n p' d') from rfl,
      march_step_eq, if_pos hlt]

/-- C4 witness at `p = (0.5, 0, 0)`, `d = (0, 1, 0)`. -/
theorem c4_horizon_capture_witness :
    ((⟨0.5, 0, 0⟩ : Vec3).length = 0.5 ∧ (⟨0, 1, 0⟩ : Vec3).length = 1) ∧
    ((step_pos ⟨0.5, 0, 0⟩ ⟨0, 1, 0⟩).length_squared < sr_squared ∧
     march_step ⟨0.5, 0, 0⟩ ⟨0, 1, 0⟩ = .done Color32.BLACK ∧
     ∀ n : ℕ, march (n + 1) ⟨0.5, 0, 0⟩ ⟨0, 1, 0⟩ = Color32.BLACK) := by
  have h1 : (⟨0.5, 0, 0⟩ : Vec3).length = 0.5 := by
    rw [Vec3.length, show (⟨0.5, 0, 0⟩ : Vec3).length_squared = (0.5 : ℝ) ^ 2 by
      norm_num [Vec3.length_squared]]
    exact Real.sqrt_sq (by norm_num)
  have h2 : (⟨0, 1, 0⟩ : Vec3).length = 1 := by
    rw [Vec3.length, show (⟨0, 1, 0⟩ : Vec3).length_squared = 1 by
      norm_num [Vec3.length_squared]]
    exact Real.sqrt_one
  exact ⟨⟨h1, h2⟩, c4_horizon_capture _ _ h1 h2⟩

/-- C6: once a step ends with squared distance above 60² the integration
terminates at that step (capture and disk cannot fire out there), with
white exactly when the starfield value exceeds 0.5 and black otherwise;
a ray escaping with direction `(1,0,0)` has starfield value
`|sin 1 · sin 0|¹⁰ = 0` and so gets black. -/
theorem c6_escape :
    (∀ p d : Vec3, 3600 < (step_pos p d).length_squared →
      march_step p d =
        .done (if star_val (step_dir p d) > 0.5 then Color32.WHITE
               else Color32.BLACK)) ∧
    star_val ⟨1, 0, 0⟩ = 0 ∧
    (if star_val (⟨1, 0, 0⟩ : Vec3) > 0.5 then Color32.WHITE else Color32.BLACK) =
      Color32.BLACK := by
  have hstar : star_val ⟨1, 0, 0⟩ = 0 := by
    simp [star_val, Real.sin_zero]
  refine ⟨?_, hstar, by rw [hstar]; norm_num⟩
  intro p d h
  have h1 : ¬((step_pos p d).length_squared < sr_squared) := by
    have : sr_squared = 1 := by norm_num [sr_squared, schwarzschild_radius]
    rw [this]
    exact not_lt.mpr (by linarith)
  have h2 : ¬(|(step_pos p d).y| < 0.1 ∧
      (schwarzschild_radius * 1.5 < dist_from_center (step_pos p d) ∧
       dist_from_center (step_pos p d) < schwarzschild_radius * 4.0)) := by
    rintro ⟨hy, -, hhi⟩
    have hq0 : 0 ≤ (step_pos p d).x ^ 2 + (step_pos p d).z ^ 2 := by positivity
    have hhi4 : dist_from_center (step_pos p d) < 4 := by
      have : schwarzschild_radius * 4.0 = 4 := by norm_num [schwarzschild_radius]
      linarith [this ▸ hhi]
    have hqlt : (step_pos p d).x ^ 2 + (step_pos p d).z ^ 2 < 16 := by
      rw [dist_from_center] at hhi4
      nlinarith [Real.sq_sqrt hq0,
        Real.sqrt_nonneg ((step_pos p d).x ^ 2 + (step_pos p d).z ^ 2), hhi4]
    have hy2 : (step_pos p d).y ^ 2 < 0.01 := by
      nlinarith [abs_nonneg (step_pos p d).y, sq_abs (step_pos p d).y]
    have : (step_pos p d).length_squared < 16.01 := by
      rw [Vec3.length_squared]
      linarith
    linarith
  have h3 : (step_pos p d).length > 60.0 := by
    rw [Vec3.length]
    exact (Real.lt_sqrt (by norm_num)).mpr (by linarith)
  rw [march_step_eq, if_neg h1, if_neg h2, if_pos h3]

/-- C6 witness at `p = (100, 0, 0)`, `d = (1, 0, 0)`. -/
theorem c6_escape_witness :
    3600 < (step_pos ⟨100, 0, 0⟩ ⟨1, 0, 0⟩).length_squared ∧
    march_step ⟨100, 0, 0⟩ ⟨1, 0, 0⟩ =
      .done (if star_val (step_dir ⟨100, 0, 0⟩ ⟨1, 0, 0⟩) > 0.5 then Color32.WHITE
             else Color32.BLACK) := by
  have hlsq : (⟨100, 0, 0⟩ : Vec3).length_squared = 10000 := by
    norm_num [Vec3.length_squared]
  have hlen : (⟨100, 0, 0⟩ : Vec3).length = 100 := by
    rw [Vec3.length, hlsq, show (10000 : ℝ) = 100 ^ 2 by norm_num,
      Real.sqrt_sq (by norm_num : (0 : ℝ) ≤ 100)]
  have hg : gravity_at ⟨100, 0, 0⟩ = ⟨-(1 / 4000), 0, 0⟩ := by
    rw [gravity_at, hlsq, Vec3.normalize, hlen]
    ext <;> simp [Vec3.smul_def, Vec3.neg_def] <;> norm_num
  have hadd : (⟨1, 0, 0⟩ : Vec3) + ⟨-(1 / 4000), 0, 0⟩ = ⟨3999 / 4000, 0, 0⟩ := by
    ext <;> simp [Vec3.add_def] <;> norm_num
  have hlen2 : (⟨3999 / 4000, 0, 0⟩ : Vec3).length = 3999 / 4000 := by
    rw [Vec3.length, show (⟨3999 / 4000, 0, 0⟩ : Vec3).length_squared =
      (3999 / 4000 : ℝ) ^ 2 by norm_num [Vec3.length_squared]]
    exact Real.sqrt_sq (by norm_num)
  have e1 : step_dir ⟨100, 0, 0⟩ ⟨1, 0, 0⟩ = ⟨1, 0, 0⟩ := by
    rw [step_dir, hg, hadd, Vec3.normalize, hlen2]
    ext <;> simp [Vec3.smul_def] <;> norm_num
  have e2 : step_pos ⟨100, 0, 0⟩ ⟨1, 0, 0⟩ = ⟨100.5, 0, 0⟩ := by
    rw [step_pos, e1]
    ext <;> simp [Vec3.add_def, Vec3.smul_def] <;> norm_num
  have hyp : 3600 < (step_pos ⟨100, 0, 0⟩ ⟨1, 0, 0⟩).length_squared := by
    rw [e2]
    norm_num [Vec3.length_squared]
  exact ⟨hyp, c6_escape.1 _ _ hyp⟩

set_option maxHeartbeats 1600000 in
/-- Numeric bracket on `sin 10` (radians), obtained by reducing to
`sin 10 = −sin (10 − 3π)`, halving the angle, and applying the cubic
Taylor bounds on `sin` and `cos`. -/
theorem sin_ten_bounds : -0.5448 < Real.sin 10 ∧ Real.sin 10 < -0.5429 := by
  have hπ₁ : 3.141592 < Real.pi := Real.pi_gt_d6
  have hπ₂ : Real.pi < 3.141593 := Real.pi_lt_d6
  have h10 : Real.sin 10 = -Real.sin (10 - 3 * Real.pi) := by
    have h : (10 : ℝ) = 10 - 3 * Real.pi + Real.pi + 2 * Real.pi := by ring
    nth_rewrite 1 [h]
    rw [Real.sin_add_two_pi, Real.sin_add_pi]
  set y : ℝ := (10 - 3 * Real.pi) / 2 with hy_def
  have hy1 : 0.2876105 < y := by rw [hy_def]; linarith
  have hy2 : y < 0.287612 := by rw [hy_def]; linarith
  have hy0 : 0 < y := by linarith
  have hy_abs : |y| ≤ 1 := by
    rw [abs_le]
    constructor <;> linarith
  have hyabs : |y| = y := abs_of_pos hy0
  have hsb' := abs_le.mp (Real.sin_bound hy_abs)
  have hcb' := abs_le.mp (Real.cos_bound hy_abs)
  rw [hyabs] at hsb' hcb'
  have hy2sq : y ^ 2 < 0.082721 := by
    nlinarith [mul_lt_mul'' hy2 hy2 (le_of_lt hy0) (le_of_lt hy0)]
  have hy2sq' : 0.082719 < y ^ 2 := by
    nlinarith [mul_lt_mul'' hy1 hy1 (by norm_num : (0:ℝ) ≤ 0.2876105)
      (by norm_num : (0:ℝ) ≤ 0.2876105)]
  have hy3 : y ^ 3 < 0.023792 := by
    nlinarith [mul_lt_mul_of_pos_right hy2sq hy0,
      mul_lt_mul_of_pos_left hy2 (by norm_num : (0:ℝ) < 0.082721)]
  have hy3' : 0.023790 < y ^ 3 := by
    nlinarith [mul_lt_mul_of_pos_right hy2sq' hy0,
      mul_lt_mul_of_pos_left hy1 (by norm_num : (0:ℝ) < 0.082719)]
  have hy4 : y ^ 4 < 0.0068428 := by
    nlinarith [mul_lt_mul'' hy2sq hy2sq (sq_nonneg y) (sq_nonneg y)]
  have hsin_lo : 0.28328 < Real.sin y := by linarith [hsb'.1]
  have hsin_hi : Real.sin y < 0.28401 := by linarith [hsb'.2]
  have hcos_lo : 0.95828 < Real.cos y := by linarith [hcb'.1]
  have hcos_hi : Real.cos y < 0.95900 := by linarith [hcb'.2]
  have hsinx : Real.sin (10 - 3 * Real.pi) = 2 * Real.sin y * Real.cos y := by
    rw [show (10 - 3 * Real.pi : ℝ) = 2 * y by rw [hy_def]; ring, Real.sin_two_mul]
  have hsx_lo : 0.5429 < Real.sin (10 - 3 * Real.pi) := by
    rw [hsinx]
    nlinarith [mul_lt_mul'' hsin_lo hcos_lo (by norm_num : (0:ℝ) ≤ 0.28328)
      (by norm_num : (0:ℝ) ≤ 0.95828)]
  have hsx_hi : Real.sin (10 - 3 * Real.pi) < 0.5448 := by
    rw [hsinx]
    nlinarith [mul_lt_mul'' hsin_hi hcos_hi (by linarith) (by linarith)]
  rw [h10]
  constructor <;> linarith

/-- C5: a step that lands near the equatorial plane (`|y| < 0.1`) with
x/z radial distance in `(1.5, 4.0)` terminates with the banded disk
color `(255·pattern, 120·pattern, 0)` where
`pattern = (sin(d·5)+1)/2`; at radial distance 2.0 the pattern is
`(sin 10 + 1)/2 ≈ 0.228` and the color is exactly `(58, 27, 0)`. -/
theorem c5_disk_hit :
    (∀ p d : Vec3,
      |(step_pos p d).y| < 0.1 →
      1.5 < dist_from_center (step_pos p d) →
      dist_from_center (step_pos p d) < 4.0 →
      march_step p d = .done (disk_color (dist_from_center (step_pos p d)))) ∧
    pattern_at 2.0 = (Real.sin 10 + 1) * 0.5 ∧
    disk_color 2.0 = ⟨58, 27, 0⟩ := by
  have hpat : pattern_at 2.0 = (Real.sin 10 + 1) * 0.5 := by
    norm_num [pattern_at]
  refine ⟨?_, hpat, ?_⟩
  · intro p d hy hlo hhi
    have hq0 : 0 ≤ (step_pos p d).x ^ 2 + (step_pos p d).z ^ 2 := by positivity
    have hlo' : 1.5 < Real.sqrt ((step_pos p d).x ^ 2 + (step_pos p d).z ^ 2) := by
      rw [dist_from_center] at hlo
      exact hlo
    have hqgt : 2.25 < (step_pos p d).x ^ 2 + (step_pos p d).z ^ 2 := by
      nlinarith [Real.sq_sqrt hq0,
        Real.sqrt_nonneg ((step_pos p d).x ^ 2 + (step_pos p d).z ^ 2), hlo']
    have h1 : ¬((step_pos p d).length_squared < sr_squared) := by
      have hsr : sr_squared = 1 := by norm_num [sr_squared, schwarzschild_radius]
      rw [hsr, Vec3.length_squared]
      refine not_lt.mpr ?_
      nlinarith [sq_nonneg (step_pos p d).y]
    have h2 : |(step_pos p d).y| < 0.1 ∧
        (schwarzschild_radius * 1.5 < dist_from_center (step_pos p d) ∧
         dist_from_center (step_pos p d) < schwarzschild_radius * 4.0) := by
      refine ⟨hy, ?_, ?_⟩
      · rw [show schwarzschild_radius * 1.5 = 1.5 by norm_num [schwarzschild_radius]]
        exact hlo
      · rw [show schwarzschild_radius * 4.0 = 4.0 by norm_num [schwarzschild_radius]]
        exact hhi
    rw [march_step_eq, if_neg h1, if_pos h2]
  · obtain ⟨hs1, hs2⟩ := sin_ten_bounds
    have h0r : (0 : ℝ) ≤ 255.0 * pattern_at 2.0 := by rw [hpat]; linarith
    have h255r : (255.0 : ℝ) * pattern_at 2.0 ≤ 255 := by rw [hpat]; linarith
    have h0g : (0 : ℝ) ≤ 120.0 * pattern_at 2.0 := by rw [hpat]; linarith
    have h255g : (120.0 : ℝ) * pattern_at 2.0 ≤ 255 := by rw [hpat]; linarith
    have hr : ⌊(255.0 * pattern_at 2.0 : ℝ)⌋ = 58 := by
      rw [Int.floor_eq_iff, hpat]
      constructor
      · push_cast
        linarith
      · push_cast
        linarith
    have hg : ⌊(120.0 * pattern_at 2.0 : ℝ)⌋ = 27 := by
      rw [Int.floor_eq_iff, hpat]
      constructor
      · push_cast
        linarith
      · push_cast
        linarith
    rw [disk_color, f32_to_u8_eq_floor _ h0r h255r, f32_to_u8_eq_floor _ h0g h255g,
      hr, hg]

/-- C5 witness: the ray at `p = (2,0,0)`, `d = (1,0,0)` steps to
`(2.5, 0, 0)`, which lies in the disk annulus, and the step reports the
disk color. -/
theorem c5_disk_hit_witness :
    (|(step_pos ⟨2, 0, 0⟩ ⟨1, 0, 0⟩).y| < 0.1 ∧
     1.5 < dist_from_center (step_pos ⟨2, 0, 0⟩ ⟨1, 0, 0⟩) ∧
     dist_from_center (step_pos ⟨2, 0, 0⟩ ⟨1, 0, 0⟩) < 4.0) ∧
    march_step ⟨2, 0, 0⟩ ⟨1, 0, 0⟩ =
      .done (disk_color (dist_from_center (step_pos ⟨2, 0, 0⟩ ⟨1, 0, 0⟩))) := by
  have hlsq : (⟨2, 0, 0⟩ : Vec3).length_squared = 4 := by
    norm_num [Vec3.length_squared]
  have hlen : (⟨2, 0, 0⟩ : Vec3).length = 2 := by
    rw [Vec3.length, hlsq, show (4 : ℝ) = 2 ^ 2 by norm_num,
      Real.sqrt_sq (by norm_num : (0 : ℝ) ≤ 2)]
  have hgv : gravity_at ⟨2, 0, 0⟩ = ⟨-(5 / 8), 0, 0⟩ := by
    rw [gravity_at, hlsq, Vec3.normalize, hlen]
    ext <;> simp [Vec3.smul_def, Vec3.neg_def] <;> norm_num
  have hadd : (⟨1, 0, 0⟩ : Vec3) + ⟨-(5 / 8), 0, 0⟩ = ⟨3 / 8, 0, 0⟩ := by
    ext <;> simp [Vec3.add_def] <;> norm_num
  have hlen2 : (⟨3 / 8, 0, 0⟩ : Vec3).length = 3 / 8 := by
    rw [Vec3.length, show (⟨3 / 8, 0, 0⟩ : Vec3).length_squared = (3 / 8 : ℝ) ^ 2 by
      norm_num [Vec3.length_squared]]
    exact Real.sqrt_sq (by norm_num)
  have e1 : step_dir ⟨2, 0, 0⟩ ⟨1, 0, 0⟩ = ⟨1, 0, 0⟩ := by
    rw [step_dir, hgv, hadd, Vec3.normalize, hlen2]
    ext <;> simp [Vec3.smul_def] <;> norm_num
  have e2 : step_pos ⟨2, 0, 0⟩ ⟨1, 0, 0⟩ = ⟨2.5, 0, 0⟩ := by
    rw [step_pos, e1]
    ext <;> simp [Vec3.add_def, Vec3.smul_def] <;> norm_num
  have hdfc : dist_from_center (step_pos ⟨2, 0, 0⟩ ⟨1, 0, 0⟩) = 2.5 := by
    rw [e2, dist_from_center,
      show ((2.5 : ℝ) ^ 2 + (0 : ℝ) ^ 2 : ℝ) = (2.5 : ℝ) ^ 2 by norm_num]
    exact Real.sqrt_sq (by norm_num)
  have hy : |(step_pos ⟨2, 0, 0⟩ ⟨1, 0, 0⟩).y| < 0.1 := by
    rw [e2]
    norm_num
  have hlo : 1.5 < dist_from_center (step_pos ⟨2, 0, 0⟩ ⟨1, 0, 0⟩) := by
    rw [hdfc]; norm_num
  have hhi : dist_from_center (step_pos ⟨2, 0, 0⟩ ⟨1, 0, 0⟩) < 4.0 := by
    rw [hdfc]; norm_num
  exact ⟨⟨hy, hlo, hhi⟩, c5_disk_hit.1 _ _ hy hlo hhi⟩

/-- C7: the integration always produces a defined color — black, white,
or a disk-pattern color; with fuel exhausted (no terminal condition in
64 steps) the default black remains; and every pixel of the raster is
such a march. -/
theorem c7_total_classification :
    (∀ (n : ℕ) (p d : Vec3),
      march n p d = Color32.BLACK ∨ march n p d = Color32.WHITE ∨
        ∃ r, march n p d = disk_color r) ∧
    (∀ p d : Vec3, march 0 p d = Color32.BLACK) ∧
    (∀ (radius azimuth : ℝ) (width height px py : ℕ),
      render_pixel radius azimuth width height px py = Color32.BLACK ∨
      render_pixel radius azimuth width height px py = Color32.WHITE ∨
        ∃ r, render_pixel radius azimuth width height px py = disk_color r) := by
  have main : ∀ (n : ℕ) (p d : Vec3),
      march n p d = Color32.BLACK ∨ march n p d = Color32.WHITE ∨
        ∃ r, march n p d = disk_color r := by
    intro n
    induction n with
    | zero => exact fun p d => Or.inl rfl
    | succ k ih =>
      intro p d
      rw [show march (k + 1) p d =
          (match march_step p d with
           | .done c => c
           | .next p' d' => march k p' d') from rfl,
        march_step_eq p d]
      split_ifs with h1 h2 h3 h4
      · exact Or.inl rfl
      · exact Or.inr (Or.inr ⟨_, rfl⟩)
      · exact Or.inr (Or.inl rfl)
      · exact Or.inl rfl
      · exact ih (step_pos p d) (step_dir p d)
  exact ⟨main, fun p d => rfl, fun radius azimuth width height px py => main 64 _ _⟩

/-- C8: the renderer is deterministic — identical camera parameters and
raster dimensions give identical rasters, pixel for pixel. -/
theorem c8_deterministic (r₁ a₁ : ℝ) (w₁ h₁ : ℕ) (r₂ a₂ : ℝ) (w₂ h₂ : ℕ)
    (hr : r₁ = r₂) (ha : a₁ = a₂) (hw : w₁ = w₂) (hh : h₁ = h₂) :
    ray_trace_scene r₁ a₁ w₁ h₁ = ray_trace_scene r₂ a₂ w₂ h₂ := by
  subst hr; subst ha; subst hw; subst hh; rfl

/-- C8 witness: two renders at the default camera agree. -/
theorem c8_deterministic_witness :
    ((15 : ℝ) = 15 ∧ (0 : ℝ) = 0 ∧ (300 : ℕ) = 300 ∧ (200 : ℕ) = 200) ∧
    ray_trace_scene 15 0 300 200 = ray_trace_scene 15 0 300 200 :=
  ⟨⟨rfl, rfl, rfl, rfl⟩,
   c8_deterministic 15 0 300 200 15 0 300 200 rfl rfl rfl rfl⟩

/-- C10: the disk pattern always lies in `[0, 1]`, so the red and green
channel values `255·pattern` and `120·pattern` lie in `[0, 255]` and
`[0, 120]`, the `as u8` casts never clamp (they are plain floors), and
the blue channel is exactly 0. -/
theorem c10_disk_channels (dist : ℝ) :
    0 ≤ pattern_at dist ∧ pattern_at dist ≤ 1 ∧
    0 ≤ 255.0 * pattern_at dist ∧ 255.0 * pattern_at dist ≤ 255 ∧
    0 ≤ 120.0 * pattern_at dist ∧ 120.0 * pattern_at dist ≤ 120 ∧
    (disk_color dist).r = ⌊255.0 * pattern_at dist⌋ ∧
    (disk_color dist).g = ⌊120.0 * pattern_at dist⌋ ∧
    (disk_color dist).b = 0 := by
  have hs1 := Real.neg_one_le_sin (dist * 5.0)
  have hs2 := Real.sin_le_one (dist * 5.0)
  have h0 : 0 ≤ pattern_at dist := by rw [pattern_at]; linarith
  have h1 : pattern_at dist ≤ 1 := by rw [pattern_at]; linarith
  refine ⟨h0, h1, by linarith, by linarith, by linarith, by linarith, ?_, ?_, rfl⟩
  · exact f32_to_u8_eq_floor _ (by linarith) (by linarith)
  · exact f32_to_u8_eq_floor _ (by linarith) (by linarith)

end
